import Mathlib

set_option maxHeartbeats 1000000
set_option maxRecDepth 10000

namespace LinDB

/-!
Shallow embedding of LinDB's TSD codec (`pkg/encoding/tsd.go`) and of the
memdb write/flush path (`tsdb/memdb/database.go`).

Bit streams are `List Bool` (`bit.One = true`, `bit.Zero = false`), byte
blocks are `List Nat` with every entry below 256, and uint16/uint64 machine
arithmetic is natural-number arithmetic taken modulo 2^16 / 2^64 at the
points where the source relies on machine-width wrap-around.
-/

/-- Modelled from the spec: `bit.Writer.WriteBits(n, w)` (package `pkg/bit`,
not part of the sources at hand) emits the `w` low bits of `n`, most
significant first.  `natToBits w n` is that bit image as a list. -/
def natToBits : Nat → Nat → List Bool
  | 0, _ => []
  | w + 1, n => n.testBit w :: natToBits w n

/-- Modelled from the spec: `bit.Reader.ReadBits(w)` reads `w` bits most
significant first; `bitsToNat` gives the value of such a bit list. -/
def bitsToNat : List Bool → Nat
  | [] => 0
  | b :: rest => (if b then 2 ^ rest.length else 0) + bitsToNat rest

/-- Modelled from the spec: flushing the bit writer pads the final partial
byte with zero bits up to a byte boundary (`bit.Writer.Flush`). -/
def pad8 (bits : List Bool) : List Bool :=
  bits ++ List.replicate ((8 - bits.length % 8) % 8) false

/-- Bytes of a flushed bit stream, eight bits per byte, MSB first.  The
fuel argument (any bound of the list length) keeps the recursion
structural. -/
def bitsToBytesAux : Nat → List Bool → List Nat
  | 0, _ => []
  | _ + 1, [] => []
  | f + 1, b :: rest => bitsToNat ((b :: rest).take 8) :: bitsToBytesAux f ((b :: rest).drop 8)

/-- Bytes of a flushed bit stream, eight bits per byte, MSB first. -/
def bitsToBytes (bits : List Bool) : List Nat :=
  bitsToBytesAux bits.length bits

/-- Bit stream served by `bit.Reader` from a byte sequence. -/
def bytesToBits : List Nat → List Bool
  | [] => []
  | b :: rest => natToBits 8 b ++ bytesToBits rest

/-- Base-2 logarithm by structural fuel recursion (agrees with `Nat.log2`
on non-zero input; the fuel form reduces inside the kernel). -/
def log2Aux : Nat → Nat → Nat
  | 0, _ => 0
  | f + 1, d => if d < 2 then 0 else log2Aux f (d / 2) + 1

/-- Base-2 logarithm, floor form. -/
def log2n (d : Nat) : Nat := log2Aux d d

/-- Number of leading zero bits of a non-zero 64-bit value
(`bits.LeadingZeros64`). -/
def leadingZeros64 (d : Nat) : Nat := 63 - log2n d

/-- Number of trailing zero bits (`bits.TrailingZeros64` for non-zero
input), by structural fuel recursion. -/
def trailingZerosAux : Nat → Nat → Nat
  | 0, _ => 0
  | f + 1, d => if d % 2 = 1 then 0 else trailingZerosAux f (d / 2) + 1

/-- Number of trailing zero bits (`bits.TrailingZeros64` for non-zero input). -/
def trailingZeros (d : Nat) : Nat := trailingZerosAux d d

/-- Modelled from the spec: `XOREncoder.Write` (file `pkg/encoding/xor.go`,
not part of the sources at hand).  The first value is stored verbatim as 64
bits; each subsequent value is stored as the bitwise XOR against the previous
value: a single `0` bit when the XOR is zero, otherwise a `1` bit followed by
the leading-zero count (6 bits), the trailing-zero count (6 bits) and the
significant bits of the XOR result.  Returns the emitted bits and the updated
previous-value state. -/
def xorWrite (prev : Option Nat) (v : Nat) : List Bool × Option Nat :=
  match prev with
  | none => (natToBits 64 v, some v)
  | some p =>
    let d := p ^^^ v
    if d = 0 then ([false], some v)
    else
      let lead := leadingZeros64 d
      let trail := trailingZeros d
      (true :: (natToBits 6 lead ++ natToBits 6 trail ++
        natToBits (64 - lead - trail) (d / 2 ^ trail)), some v)

/-- Modelled from the spec: `XORDecoder.Next` reads one value back from the
bit stream, mirroring `xorWrite`; returns the value and the remaining bits,
or `none` when the stream is exhausted. -/
def xorRead (prev : Option Nat) (bits : List Bool) : Option (Nat × List Bool) :=
  match prev with
  | none =>
    if 64 ≤ bits.length then some (bitsToNat (bits.take 64), bits.drop 64)
    else none
  | some p =>
    match bits with
    | [] => none
    | false :: rest => some (p, rest)
    | true :: rest =>
      if 12 ≤ rest.length then
        let lead := bitsToNat (rest.take 6)
        let trail := bitsToNat ((rest.drop 6).take 6)
        let rest2 := rest.drop 12
        let sig := 64 - lead - trail
        if sig ≤ rest2.length then
          some (p ^^^ bitsToNat (rest2.take sig) * 2 ^ trail, rest2.drop sig)
        else none
      else none

/-- State of `tsdEncoder` (tsd.go lines 71-78).  `bits` is the content of
`bitBuffer` plus the pending bits of `bitWriter`; `xorPrev` is the XOR
encoder's previous-value state; `count` and `startTime` are the uint16
fields.  `err` is the sticky error. -/
structure tsdEncoder where
  startTime : Nat
  bits : List Bool
  xorPrev : Option Nat
  count : Nat
  err : Option String
deriving DecidableEq, Repr

/-- `NewTSDEncoder` (tsd.go line 81): fresh encoder with the given uint16
start slot. -/
def NewTSDEncoder (startTime : Nat) : tsdEncoder :=
  ⟨startTime % 65536, [], none, 0, none⟩

/-- `tsdEncoder.Reset` (tsd.go line 89): clears the bit buffer, the bit
writer and the XOR encoder; `startTime`, `count` and `err` are untouched. -/
def tsdEncoder.Reset (e : tsdEncoder) : tsdEncoder :=
  { e with bits := [], xorPrev := none }

/-- `tsdEncoder.AppendTime` (tsd.go line 96): no-op when an error is
latched; otherwise writes one presence bit and increments the uint16 slot
counter.  Writing to the in-memory buffer cannot fail, so `err` stays nil. -/
def tsdEncoder.AppendTime (e : tsdEncoder) (slot : Bool) : tsdEncoder :=
  if e.err ≠ none then e
  else { e with bits := e.bits ++ [slot], count := (e.count + 1) % 65536 }

/-- `tsdEncoder.AppendValue` (tsd.go line 105): no-op when an error is
latched; otherwise feeds the uint64 value through the XOR encoder. -/
def tsdEncoder.AppendValue (e : tsdEncoder) (value : Nat) : tsdEncoder :=
  if e.err ≠ none then e
  else
    let w := xorWrite e.xorPrev (value % 2 ^ 64)
    { e with bits := e.bits ++ w.1, xorPrev := w.2 }

/-- Little-endian uint16 image, as written by `stream.PutUInt16`. -/
def u16le (n : Nat) : List Nat := [n % 256, n / 256 % 256]

/-- Little-endian uint16 read, as in `binary.LittleEndian.Uint16(data[off:])`. -/
def readU16le (data : List Nat) (off : Nat) : Nat :=
  data.getD off 0 + 256 * data.getD (off + 1) 0

/-- `tsdEncoder.Bytes` (tsd.go lines 113-131), returned as the Go pair
`([]byte, error)`: a latched error surfaces as `(none, some err)`; a zero
`count` yields `(none, none)`; otherwise the block is the 4-byte
little-endian start/end header followed by the flushed bit stream.  The end
slot is the uint16 value `startTime + count - 1`, which wraps modulo 2^16. -/
def tsdEncoder.Bytes (e : tsdEncoder) : Option (List Nat) × Option String :=
  match e.err with
  | some msg => (none, some msg)
  | none =>
    if e.count = 0 then (none, none)
    else
      (some (u16le e.startTime ++ u16le ((e.startTime + e.count - 1) % 65536) ++
        bitsToBytes (pad8 e.bits)), none)

/-- `tsdEncoder.BytesWithoutTime` (tsd.go lines 134-142): same payload
without the header. -/
def tsdEncoder.BytesWithoutTime (e : tsdEncoder) : Option (List Nat) × Option String :=
  match e.err with
  | some msg => (none, some msg)
  | none => (some (bitsToBytes (pad8 e.bits)), none)

/-- State of `TSDDecoder` (tsd.go lines 149-159).  `bits` is the unread
suffix of the bit stream of the current block; `hasReader` is false exactly
when the Go `reader`/`values` fields are still nil (fresh decoder that never
saw valid data); `idx` is the uint16 slot cursor. -/
structure TSDDecoder where
  startTime : Nat
  endTime : Nat
  bits : List Bool
  xorPrev : Option Nat
  idx : Nat
  hasReader : Bool
  err : Option String
deriving DecidableEq, Repr

/-- The zero-value `TSDDecoder{}` allocated by `NewTSDDecoder`. -/
def freshTSDDecoder : TSDDecoder :=
  ⟨0, 0, [], none, 0, false, none⟩

/-- `TSDDecoder.Reset` (tsd.go lines 181-194).  Data of length ≤ 4 only sets
the sticky error and returns, leaving every other field as it was; valid
data re-initialises the whole state, parsing the little-endian header and
pointing the bit reader at byte 4. -/
def TSDDecoder.Reset (d : TSDDecoder) (data : List Nat) : TSDDecoder :=
  if data.length ≤ 4 then
    { d with err := some "TSDDecoder resets with bad data" }
  else
    { startTime := readU16le data 0
      endTime := readU16le data 2
      bits := bytesToBits (data.drop 4)
      xorPrev := none
      idx := 0
      hasReader := true
      err := none }

/-- `TSDDecoder.Error` (tsd.go line 210). -/
def TSDDecoder.Error (d : TSDDecoder) : Option String := d.err

/-- `TSDDecoder.StartTime` (tsd.go line 215). -/
def TSDDecoder.StartTime (d : TSDDecoder) : Nat := d.startTime

/-- `TSDDecoder.EndTime` (tsd.go line 220). -/
def TSDDecoder.EndTime (d : TSDDecoder) : Nat := d.endTime

/-- `TSDDecoder.Next` (tsd.go lines 225-231): `startTime + idx` is uint16
addition, hence taken modulo 2^16; on success the uint16 cursor advances. -/
def TSDDecoder.Next (d : TSDDecoder) : Bool × TSDDecoder :=
  if (d.startTime + d.idx) % 65536 ≤ d.endTime then
    (true, { d with idx := (d.idx + 1) % 65536 })
  else
    (false, d)

/-- `TSDDecoder.HasValue` (tsd.go lines 234-244): nil reader yields false;
reading past the end of the byte stream latches the read error; otherwise
the next presence bit is consumed. -/
def TSDDecoder.HasValue (d : TSDDecoder) : Bool × TSDDecoder :=
  if ¬ d.hasReader then (false, d)
  else
    match d.bits with
    | [] => (false, { d with err := some "EOF" })
    | b :: rest => (b, { d with bits := rest })

/-- `TSDDecoder.Value` (tsd.go lines 263-271): nil values-decoder or an
exhausted stream yields the defensive 0; otherwise the next XOR-decoded
value is consumed. -/
def TSDDecoder.Value (d : TSDDecoder) : Nat × TSDDecoder :=
  if ¬ d.hasReader then (0, d)
  else
    match xorRead d.xorPrev d.bits with
    | some (v, rest) => (v, { d with xorPrev := some v, bits := rest })
    | none => (0, d)

/-- Feeding a (present, value) sequence to the encoder: one `AppendTime` per
slot, then one `AppendValue` for the present slots, in order (the protocol
of claim C1). -/
def appendSeq (e : tsdEncoder) (ps : List (Bool × Nat)) : tsdEncoder :=
  ps.foldl (fun acc p =>
    let e1 := acc.AppendTime p.1
    if p.1 then e1.AppendValue p.2 else e1) e

/-- Calling `AppendTime` once per bit of a list. -/
def appendTimes (e : tsdEncoder) (bs : List Bool) : tsdEncoder :=
  bs.foldl (fun acc b => acc.AppendTime b) e

/-- Calling `AppendValue` once per value of a list. -/
def appendValues (e : tsdEncoder) (vs : List Nat) : tsdEncoder :=
  vs.foldl (fun acc v => acc.AppendValue v) e

/-- The bit stream the encoder emits for a (present, value) sequence,
together with the final XOR state: one presence bit per slot, followed by
the XOR code of the value for present slots. -/
def encBits : List (Bool × Nat) → Option Nat → List Bool × Option Nat
  | [], st => ([], st)
  | (true, v) :: ps, st =>
    let w := xorWrite st (v % 2 ^ 64)
    let rest := encBits ps w.2
    (true :: (w.1 ++ rest.1), rest.2)
  | (false, _) :: ps, st =>
    let rest := encBits ps st
    (false :: rest.1, rest.2)

/-- Decoding loop of claim C1: iterate `Next()`, reading the presence bit
with `HasValue()` and, for present slots, the value with `Value()`, in
lockstep, until `Next()` returns false.  `fuel` bounds the iteration so the
loop is a total function; 65536 steps exceed any uint16 slot range. -/
def decodeLoop (fuel : Nat) (d : TSDDecoder) : List (Bool × Option Nat) :=
  match fuel with
  | 0 => []
  | fuel + 1 =>
    let n := d.Next
    if n.1 then
      let h := n.2.HasValue
      if h.1 then
        let v := h.2.Value
        (true, some v.1) :: decodeLoop fuel v.2
      else
        (false, none) :: decodeLoop fuel h.2
    else []

/-! ## memdb write/flush path (tsdb/memdb/database.go)

`WriteWithoutLock` decomposes one `MetricPoint` into a sequence of
`writeLinField` calls.  The store layer behind `writeLinField`
(`mStoreINTF`/`tStoreINTF`/`fieldStore` and the `DataPointBuffer` page
allocator) is not among the sources at hand, so a `writeLinField` call is
modelled as an event carrying the field ID, the field type and the value it
would write; per the spec, page allocation inside `writeLinField` "must be
possible to fail cleanly", which the oracle `fail` abstracts: `fail i` is
the outcome of the i-th `writeLinField` call of the point.  Field values
are float64 in the source; they are modelled as rationals (they are only
carried and compared against zero, never subjected to float rounding). -/

/-- `field.Type` values used by `WriteWithoutLock` (series/field). -/
inductive FieldType where
  | SumField
  | GaugeField
  | MinField
  | HistogramField
deriving DecidableEq, Repr

/-- `protoMetricsV1.SimpleFieldType`. -/
inductive SimpleFieldType where
  | DELTA_SUM
  | CUMULATIVE_SUM
  | GAUGE
  | UNSPECIFIED
deriving DecidableEq, Repr

/-- `protoMetricsV1.SimpleField` (fields `Type` and `Value`). -/
structure SimpleField where
  typ : SimpleFieldType
  value : Rat
deriving DecidableEq, Repr

/-- `protoMetricsV1.CompoundField`: histogram min/max/sum/count plus
explicit bounds and bucket values. -/
structure CompoundField where
  Min : Rat
  Max : Rat
  Sum : Rat
  Count : Rat
  ExplicitBounds : List Rat
  Values : List Rat
deriving DecidableEq, Repr

/-- `protoMetricsV1.Metric`: the parts consumed by `WriteWithoutLock`. -/
structure Metric where
  simpleFields : List SimpleField
  compoundField : Option CompoundField
deriving DecidableEq, Repr

/-- `MetricPoint` (database.go lines 151-157). -/
structure MetricPoint where
  metricID : Nat
  seriesID : Nat
  slotIndex : Nat
  fieldIDs : List Nat
  proto : Metric
deriving DecidableEq, Repr

/-- One performed `writeLinField` call: the positional field ID it was
given, the `field.Type`, the value and the slot. -/
structure FieldWrite where
  fieldID : Nat
  fieldType : FieldType
  value : Rat
  slotIndex : Nat
deriving DecidableEq, Repr

/-- The `switch` at database.go lines 186-193: DELTA_SUM/CUMULATIVE_SUM map
to `field.SumField`, GAUGE to `field.GaugeField`, anything else is skipped
(`continue`, which also skips the field-ID index increment). -/
def simpleFieldType : SimpleFieldType → Option FieldType
  | .DELTA_SUM => some .SumField
  | .CUMULATIVE_SUM => some .SumField
  | .GAUGE => some .GaugeField
  | .UNSPECIFIED => none

/-- The (type, value) write list contributed by the simple fields. -/
def simpleWrites (sfs : List SimpleField) : List (FieldType × Rat) :=
  sfs.filterMap fun sf => (simpleFieldType sf.typ).map fun ft => (ft, sf.value)

/-- The (type, value) write list contributed by a compound field
(database.go lines 214-268): min when `Min > 0`, max when `Max > 0` (the
source passes `field.MinField` for the max write), then sum and count
unconditionally, then one `HistogramField` write per explicit bound using
`Values[idx]`. -/
def compoundWrites (cf : CompoundField) : List (FieldType × Rat) :=
  (if 0 < cf.Min then [(FieldType.MinField, cf.Min)] else []) ++
  (if 0 < cf.Max then [(FieldType.MinField, cf.Max)] else []) ++
  [(FieldType.SumField, cf.Sum), (FieldType.SumField, cf.Count)] ++
  (List.range cf.ExplicitBounds.length).map
    (fun idx => (FieldType.HistogramField, cf.Values.getD idx 0))

/-- All (type, value) writes of one point, in program order: simple fields
first, then the compound expansion (database.go lines 181-268; a nil
compound field jumps to `End`). -/
def pointWrites (p : MetricPoint) : List (FieldType × Rat) :=
  simpleWrites p.proto.simpleFields ++
    (match p.proto.compoundField with
     | none => []
     | some cf => compoundWrites cf)

/-- Attach the positional field IDs: the i-th performed write uses
`point.FieldIDs[fieldIDIdx]` where `fieldIDIdx` counts performed writes
(`afterWrite`, database.go lines 175-179). -/
def attachIDs (fids : List Nat) (slot : Nat) : Nat → List (FieldType × Rat) → List FieldWrite
  | _, [] => []
  | i, (ft, v) :: ws => ⟨fids.getD i 0, ft, v, slot⟩ :: attachIDs fids slot (i + 1) ws

/-- The full intended field-write sequence of one point. -/
def intendedWrites (p : MetricPoint) : List FieldWrite :=
  attachIDs p.fieldIDs p.slotIndex 0 (pointWrites p)

/-- Modelled from the spec: executing the writes in order against the store.
`fail i` is the outcome of the i-th `writeLinField` call (a page-allocation
failure surfaces as `some err`); on the first failure the error is returned
at once and no further write is attempted, while the previously performed
writes are kept (no rollback).  Returns the performed writes and the
returned error. -/
def runWrites (fail : Nat → Option String) : Nat → List FieldWrite → List FieldWrite × Option String
  | _, [] => ([], none)
  | i, w :: ws =>
    match fail i with
    | some e => ([], some e)
    | none =>
      let r := runWrites fail (i + 1) ws
      (w :: r.1, r.2)

/-- `memoryDatabase.WriteWithoutLock` (database.go lines 170-276), observed
through its sequence of `writeLinField` calls. -/
def WriteWithoutLock (fail : Nat → Option String) (p : MetricPoint) :
    List FieldWrite × Option String :=
  runWrites fail 0 (intendedWrites p)

/-- Modelled from the spec: `MetricBucketStore.WalkEntry` visits every
(metricID, mStore) pair in order and aborts early, propagating the first
error the visitor returns.  Here the visitor is the per-metric
`FlushMetricsDataTo` of `FlushFamilyTo`, whose outcome is the oracle
`flushRes` keyed by metric ID; the walk returns the IDs flushed without
error and the propagated error, if any. -/
def walkFlush (flushRes : Nat → Option String) : List Nat → List Nat × Option String
  | [] => ([], none)
  | k :: ks =>
    match flushRes k with
    | some e => ([], some e)
    | none =>
      let r := walkFlush flushRes ks
      (k :: r.1, r.2)

/-- `memoryDatabase.FlushFamilyTo` (database.go lines 301-316): walk all
metric stores; a walk error is returned and `flusher.Commit()` is never
called; otherwise `Commit()` is called exactly once and its result is
returned.  The result carries (metric IDs flushed, number of `Commit`
calls) and the returned error. -/
def FlushFamilyTo (entries : List Nat) (flushRes : Nat → Option String)
    (commitRes : Option String) : (List Nat × Nat) × Option String :=
  let w := walkFlush flushRes entries
  match w.2 with
  | some e => ((w.1, 0), some e)
  | none => ((w.1, 1), commitRes)

end LinDB

namespace LinDB

theorem natToBits_length (w n : Nat) : (natToBits w n).length = w := by
  induction w generalizing n with
  | zero => rfl
  | succ k ih => simp [natToBits, ih]

theorem bitsToNat_lt (l : List Bool) : bitsToNat l < 2 ^ l.length := by
  induction l with
  | nil => simp [bitsToNat]
  | cons b rest ih =>
    simp only [bitsToNat, List.length_cons, pow_succ]
    split <;> omega

theorem bitsToNat_cons (b : Bool) (rest : List Bool) :
    bitsToNat (b :: rest) = (if b then 2 ^ rest.length else 0) + bitsToNat rest := rfl

theorem bitsToNat_natToBits (w n : Nat) :
    bitsToNat (natToBits w n) = n % 2 ^ w := by
  induction w generalizing n with
  | zero => simp [natToBits, bitsToNat, Nat.mod_one]
  | succ k ih =>
    have hsplit : n % 2 ^ (k + 1) = (if n.testBit k then 2 ^ k else 0) + n % 2 ^ k := by
      have h1 : n % 2 ^ (k + 1) = n % (2 ^ k * 2) := by ring_nf
      have h2 : n % (2 ^ k * 2) = n % 2 ^ k + 2 ^ k * (n / 2 ^ k % 2) := Nat.mod_mul
      have h3 : n.testBit k = decide (n / 2 ^ k % 2 = 1) := Nat.testBit_to_div_mod
      have h4 : n / 2 ^ k % 2 = 0 ∨ n / 2 ^ k % 2 = 1 := Nat.mod_two_eq_zero_or_one _
      rcases h4 with h4 | h4 <;> simp [h1, h2, h3, h4] <;> omega
    simp only [natToBits, bitsToNat_cons, natToBits_length, ih, hsplit]

theorem natToBits_eq_of_testBit_eq (w : Nat) {m n : Nat}
    (h : ∀ j, j < w → m.testBit j = n.testBit j) :
    natToBits w m = natToBits w n := by
  induction w with
  | zero => rfl
  | succ k ih =>
    simp only [natToBits]
    refine congrArg₂ _ (h k (Nat.lt_succ_self k)) (ih fun j hj => h j (Nat.lt_succ_of_lt hj))

theorem natToBits_mod (w n : Nat) : natToBits w (n % 2 ^ w) = natToBits w n := by
  refine natToBits_eq_of_testBit_eq w fun j hj => ?_
  rw [Nat.testBit_mod_two_pow]
  simp [hj]

theorem natToBits_bitsToNat (l : List Bool) :
    natToBits l.length (bitsToNat l) = l := by
  induction l with
  | nil => rfl
  | cons b rest ih =>
    have hrest := bitsToNat_lt rest
    simp only [List.length_cons, natToBits, bitsToNat_cons, List.cons.injEq]
    refine ⟨?_, ?_⟩
    · -- the top bit is `b`
      rw [Nat.testBit_to_div_mod]
      rcases b with _ | _
      · simp only [if_neg Bool.false_ne_true, Nat.zero_add]
        rw [Nat.div_eq_of_lt hrest]
        simp
      · simp only [if_pos rfl]
        have : (2 ^ rest.length + bitsToNat rest) / 2 ^ rest.length = 1 := by
          rw [Nat.add_div_left _ (Nat.pos_pow_of_pos _ (by norm_num)) ] at *
          · rw [Nat.div_eq_of_lt hrest]
        simp [this]
    · -- lower bits are those of `rest`
      rw [← natToBits_mod]
      have hmod : ((if b then 2 ^ rest.length else 0) + bitsToNat rest) % 2 ^ rest.length
          = bitsToNat rest := by
        split
        · rw [Nat.add_mod_left, Nat.mod_eq_of_lt hrest]
        · rw [Nat.zero_add, Nat.mod_eq_of_lt hrest]
      rw [hmod, ih]

theorem bytesToBits_append (l r : List Nat) :
    bytesToBits (l ++ r) = bytesToBits l ++ bytesToBits r := by
  induction l with
  | nil => rfl
  | cons b rest ih => simp [bytesToBits, ih]

theorem bitsToBytesAux_nil (f : Nat) : bitsToBytesAux f [] = [] := by
  cases f <;> rfl

theorem bitsToBytesAux_fuel (f : Nat) : ∀ (g : Nat) (bits : List Bool),
    bits.length ≤ f → bits.length ≤ g → bitsToBytesAux f bits = bitsToBytesAux g bits := by
  induction f with
  | zero =>
    intro g bits hf _
    have hb : bits = [] := List.length_eq_zero.mp (Nat.le_zero.mp hf)
    subst hb
    rw [bitsToBytesAux_nil, bitsToBytesAux_nil]
  | succ f ih =>
    intro g bits hf hg
    cases bits with
    | nil => rw [bitsToBytesAux_nil, bitsToBytesAux_nil]
    | cons b rest =>
      cases g with
      | zero => simp at hg
      | succ g =>
        simp only [bitsToBytesAux]
        congr 1
        apply ih
        · simp only [List.length_drop, List.length_cons] at hf ⊢
          omega
        · simp only [List.length_drop, List.length_cons] at hg ⊢
          omega

theorem bitsToBytes_cons (b : Bool) (rest : List Bool) :
    bitsToBytes (b :: rest) =
      bitsToNat ((b :: rest).take 8) :: bitsToBytes ((b :: rest).drop 8) := by
  simp only [bitsToBytes, List.length_cons, bitsToBytesAux]
  congr 1
  apply bitsToBytesAux_fuel
  · simp only [List.length_drop, List.length_cons]
    omega
  · exact le_refl _

theorem bytesToBits_bitsToBytes_aux : ∀ N : Nat, ∀ bits : List Bool,
    bits.length = N → N % 8 = 0 → bytesToBits (bitsToBytes bits) = bits := by
  intro N
  induction N using Nat.strong_induction_on with
  | _ N ih =>
    intro bits hN h
    cases bits with
    | nil => rfl
    | cons b rest =>
      rw [bitsToBytes_cons]
      have hNpos : 0 < N := by
        rw [← hN]
        simp
      have hlen8 : 8 ≤ (b :: rest).length := by
        rw [hN]
        omega
      have htake : ((b :: rest).take 8).length = 8 := by
        simp only [List.length_take]
        omega
      have hbyte : natToBits 8 (bitsToNat ((b :: rest).take 8)) = (b :: rest).take 8 := by
        have hrt := natToBits_bitsToNat ((b :: rest).take 8)
        rwa [htake] at hrt
      have hdroplen : ((b :: rest).drop 8).length = N - 8 := by
        simp only [List.length_drop, hN]
      simp only [bytesToBits, hbyte]
      rw [ih (N - 8) (by omega) ((b :: rest).drop 8) hdroplen (by omega)]
      exact List.take_append_drop 8 (b :: rest)

theorem bytesToBits_bitsToBytes (bits : List Bool) (h : bits.length % 8 = 0) :
    bytesToBits (bitsToBytes bits) = bits :=
  bytesToBits_bitsToBytes_aux bits.length bits rfl h

theorem pad8_length_mod (bits : List Bool) : (pad8 bits).length % 8 = 0 := by
  simp only [pad8, List.length_append, List.length_replicate]
  have := Nat.mod_lt bits.length (show 0 < 8 by norm_num)
  omega

theorem pad8_eq_append (bits : List Bool) :
    pad8 bits = bits ++ List.replicate ((8 - bits.length % 8) % 8) false := rfl

theorem pad8_ne_nil {bits : List Bool} (h : bits ≠ []) : pad8 bits ≠ [] := by
  simp only [pad8]
  intro hc
  rcases List.append_eq_nil.mp hc with ⟨h1, _⟩
  exact h h1

theorem bitsToBytes_ne_nil {bits : List Bool} (h : bits ≠ []) :
    bitsToBytes bits ≠ [] := by
  cases bits with
  | nil => exact absurd rfl h
  | cons b rest =>
    rw [bitsToBytes_cons]
    simp

theorem trailingZerosAux_dvd : ∀ f d : Nat, d ≠ 0 → d ≤ f →
    2 ^ trailingZerosAux f d ∣ d := by
  intro f
  induction f with
  | zero =>
    intro d hd hle
    omega
  | succ f ih =>
    intro d hd hle
    by_cases hodd : d % 2 = 1
    · simp [trailingZerosAux, hodd]
    · simp only [trailingZerosAux, if_neg hodd]
      have hd2 : d / 2 ≠ 0 := by omega
      have hle2 : d / 2 ≤ f := by omega
      have hdvd := ih (d / 2) hd2 hle2
      rw [pow_succ]
      calc 2 ^ trailingZerosAux f (d / 2) * 2 ∣ (d / 2) * 2 :=
          Nat.mul_dvd_mul_right hdvd 2
        _ = d := by omega

theorem two_pow_trailingZeros_dvd (d : Nat) : 2 ^ trailingZeros d ∣ d := by
  by_cases hd : d = 0
  · subst hd
    simp
  · exact trailingZerosAux_dvd d d hd (le_refl d)

theorem log2Aux_spec : ∀ f d : Nat, d ≠ 0 → d ≤ f →
    2 ^ log2Aux f d ≤ d ∧ d < 2 ^ (log2Aux f d + 1) := by
  intro f
  induction f with
  | zero =>
    intro d hd hle
    omega
  | succ f ih =>
    intro d hd hle
    by_cases h2 : d < 2
    · have hone : d = 1 := by omega
      subst hone
      simp [log2Aux]
    · simp only [log2Aux, if_neg h2]
      have hd2 : d / 2 ≠ 0 := by omega
      have hle2 : d / 2 ≤ f := by omega
      obtain ⟨hlo, hhi⟩ := ih (d / 2) hd2 hle2
      constructor
      · rw [pow_succ]
        omega
      · rw [pow_succ]
        omega

theorem log2n_spec {d : Nat} (hd : d ≠ 0) :
    2 ^ log2n d ≤ d ∧ d < 2 ^ (log2n d + 1) :=
  log2Aux_spec d d hd (le_refl d)

theorem le_log2n {d k : Nat} (hd : d ≠ 0) (h : 2 ^ k ≤ d) : k ≤ log2n d := by
  by_contra hk
  push_neg at hk
  have hhi := (log2n_spec hd).2
  have hpow : 2 ^ (log2n d + 1) ≤ 2 ^ k := Nat.pow_le_pow_right (by norm_num) (by omega)
  omega

theorem trailingZeros_le_log2n {d : Nat} (hd : d ≠ 0) :
    trailingZeros d ≤ log2n d := by
  refine le_log2n hd ?_
  exact Nat.le_of_dvd (Nat.pos_of_ne_zero hd) (two_pow_trailingZeros_dvd d)

theorem leadingZeros64_le {d : Nat} : leadingZeros64 d ≤ 63 := by
  simp [leadingZeros64]

theorem log2n_le_63 {d : Nat} (hd : d ≠ 0) (hlt : d < 2 ^ 64) :
    log2n d ≤ 63 := by
  by_contra hk
  push_neg at hk
  have hlo := (log2n_spec hd).1
  have hpow : 2 ^ 64 ≤ 2 ^ log2n d := Nat.pow_le_pow_right (by norm_num) (by omega)
  omega

theorem div_two_pow_trailing_lt {d : Nat} (hd : d ≠ 0) (hlt : d < 2 ^ 64) :
    d / 2 ^ trailingZeros d < 2 ^ (64 - leadingZeros64 d - trailingZeros d) := by
  have hlog := log2n_le_63 hd hlt
  have htr := trailingZeros_le_log2n hd
  have hlead : leadingZeros64 d = 63 - log2n d := rfl
  have hexp : 64 - leadingZeros64 d - trailingZeros d
      = log2n d + 1 - trailingZeros d := by omega
  rw [hexp]
  rw [Nat.div_lt_iff_lt_mul (Nat.pos_pow_of_pos _ (by norm_num))]
  calc d < 2 ^ (log2n d + 1) := (log2n_spec hd).2
    _ = 2 ^ (log2n d + 1 - trailingZeros d) * 2 ^ trailingZeros d := by
        rw [← pow_add]
        congr 1
        omega

theorem div_mul_trailing_eq {d : Nat} :
    d / 2 ^ trailingZeros d * 2 ^ trailingZeros d = d :=
  Nat.div_mul_cancel (two_pow_trailingZeros_dvd d)

theorem take_append_len {α : Type} (A X : List α) (n : Nat) (h : A.length = n) :
    (A ++ X).take n = A := by
  subst h
  exact List.take_left A X

theorem drop_append_len {α : Type} (A X : List α) (n : Nat) (h : A.length = n) :
    (A ++ X).drop n = X := by
  subst h
  exact List.drop_left A X

/-- Round-trip of one XOR-codec value: reading back what `xorWrite` emitted
yields the original value and leaves the trailing stream untouched. -/
theorem xorRead_xorWrite (prev : Option Nat) (v : Nat) (hv : v < 2 ^ 64)
    (hprev : ∀ p, prev = some p → p < 2 ^ 64) (extra : List Bool) :
    xorRead prev ((xorWrite prev v).1 ++ extra) = some (v, extra) := by
  match prev with
  | none =>
    simp only [xorWrite, xorRead]
    have hlen : (natToBits 64 v ++ extra).length = 64 + extra.length := by
      simp [natToBits_length]
    rw [if_pos (by omega)]
    rw [take_append_len _ _ _ (natToBits_length 64 v),
      drop_append_len _ _ _ (natToBits_length 64 v),
      bitsToNat_natToBits, Nat.mod_eq_of_lt hv]
  | some p =>
    have hp : p < 2 ^ 64 := hprev p rfl
    simp only [xorWrite]
    by_cases hzero : p ^^^ v = 0
    · rw [if_pos hzero]
      have hpv : p = v := Nat.xor_eq_zero.mp hzero
      simp [xorRead, hpv]
    · rw [if_neg hzero]
      set d := p ^^^ v with hd
      have hdlt : d < 2 ^ 64 := Nat.xor_lt_two_pow hp hv
      set lead := leadingZeros64 d with hlead
      set trail := trailingZeros d with htrail
      set sig := 64 - lead - trail with hsig
      set m := d / 2 ^ trail with hm
      have hleadlt : lead < 64 := by
        have : lead ≤ 63 := leadingZeros64_le
        omega
      have htraillt : trail < 64 := by
        have h1 := trailingZeros_le_log2n hzero
        have h2 := log2n_le_63 hzero hdlt
        omega
      have hmlt : m < 2 ^ sig := div_two_pow_trailing_lt hzero hdlt
      have hA : (natToBits 6 lead).length = 6 := natToBits_length 6 lead
      have hB : (natToBits 6 trail).length = 6 := natToBits_length 6 trail
      have hC : (natToBits sig m).length = sig := natToBits_length sig m
      simp only [xorRead, List.cons_append]
      set rest := (natToBits 6 lead ++ natToBits 6 trail ++ natToBits sig m) ++ extra
        with hrest
      have hrest' : rest = natToBits 6 lead ++
          (natToBits 6 trail ++ (natToBits sig m ++ extra)) := by
        simp [hrest, List.append_assoc]
      have hlenrest : rest.length = 6 + 6 + sig + extra.length := by
        simp [hrest, hA, hB, hC]
        omega
      rw [if_pos (by omega)]
      have htk6 : rest.take 6 = natToBits 6 lead := by
        rw [hrest']
        exact take_append_len _ _ _ hA
      have hdp6 : rest.drop 6 = natToBits 6 trail ++ (natToBits sig m ++ extra) := by
        rw [hrest']
        exact drop_append_len _ _ _ hA
      have htk66 : (rest.drop 6).take 6 = natToBits 6 trail := by
        rw [hdp6]
        exact take_append_len _ _ _ hB
      have hdp12 : rest.drop 12 = natToBits sig m ++ extra := by
        rw [hrest', show (12 : Nat) = 6 + 6 from rfl, ← List.drop_drop,
          drop_append_len _ _ _ hA]
        exact drop_append_len _ _ _ hB
      have hleadval : bitsToNat (rest.take 6) = lead := by
        rw [htk6, bitsToNat_natToBits]
        exact Nat.mod_eq_of_lt (by norm_num; omega)
      have htrailval : bitsToNat ((rest.drop 6).take 6) = trail := by
        rw [htk66, bitsToNat_natToBits]
        exact Nat.mod_eq_of_lt (by norm_num; omega)
      rw [hleadval, htrailval, hdp12]
      have hlen2 : sig ≤ (natToBits sig m ++ extra).length := by
        simp [hC]
      rw [if_pos hlen2]
      rw [take_append_len _ _ _ hC, drop_append_len _ _ _ hC,
        bitsToNat_natToBits, Nat.mod_eq_of_lt hmlt]
      have hmd : m * 2 ^ trail = d := div_mul_trailing_eq
      rw [hmd, hd, ← Nat.xor_assoc, Nat.xor_self, Nat.zero_xor]

theorem encBits_nil (st : Option Nat) : encBits [] st = ([], st) := rfl

theorem appendSeq_cons (e : tsdEncoder) (p : Bool × Nat) (ps : List (Bool × Nat)) :
    appendSeq e (p :: ps) =
      appendSeq (if p.1 then (e.AppendTime p.1).AppendValue p.2 else e.AppendTime p.1) ps := rfl

theorem appendTimes_cons (e : tsdEncoder) (b : Bool) (bs : List Bool) :
    appendTimes e (b :: bs) = appendTimes (e.AppendTime b) bs := rfl

theorem appendValues_cons (e : tsdEncoder) (v : Nat) (vs : List Nat) :
    appendValues e (v :: vs) = appendValues (e.AppendValue v) vs := rfl

/-- Closed form of a whole append run on an error-free encoder: the bits are
exactly `encBits`, the slot counter advances by the sequence length modulo
2^16, and no error appears. -/
theorem appendSeq_go (ps : List (Bool × Nat)) (e : tsdEncoder) (he : e.err = none)
    (hc : e.count < 65536) :
    appendSeq e ps =
      { e with bits := e.bits ++ (encBits ps e.xorPrev).1,
               xorPrev := (encBits ps e.xorPrev).2,
               count := (e.count + ps.length) % 65536 } := by
  induction ps generalizing e with
  | nil =>
    simp only [appendSeq, List.foldl_nil, encBits_nil, List.append_nil, List.length_nil,
      Nat.add_zero, Nat.mod_eq_of_lt hc]
  | cons p ps ih =>
    rcases p with ⟨b, v⟩
    rw [appendSeq_cons]
    rcases b with _ | _
    · -- absent slot: a single `false` presence bit
      rw [if_neg (by simp)]
      have hstep : e.AppendTime false =
          { e with bits := e.bits ++ [false], count := (e.count + 1) % 65536 } := by
        simp [tsdEncoder.AppendTime, he]
      rw [hstep, ih _ (by simpa using he) (by exact Nat.mod_lt _ (by norm_num))]
      show _ = ({ e with
        bits := e.bits ++ (false :: (encBits ps e.xorPrev).1),
        xorPrev := (encBits ps e.xorPrev).2,
        count := (e.count + (ps.length + 1)) % 65536 } : tsdEncoder)
      rw [tsdEncoder.mk.injEq]
      refine ⟨rfl, ?_, rfl, ?_, rfl⟩
      · simp [List.append_assoc]
      · rw [Nat.mod_add_mod]
        omega
    · -- present slot: presence bit then the XOR code of the value
      rw [if_pos rfl]
      have hstep : (e.AppendTime true).AppendValue v =
          { e with bits := (e.bits ++ [true]) ++ (xorWrite e.xorPrev (v % 2 ^ 64)).1,
                   xorPrev := (xorWrite e.xorPrev (v % 2 ^ 64)).2,
                   count := (e.count + 1) % 65536 } := by
        simp [tsdEncoder.AppendTime, tsdEncoder.AppendValue, he]
      rw [hstep, ih _ (by simpa using he) (by exact Nat.mod_lt _ (by norm_num))]
      show _ = ({ e with
        bits := e.bits ++ (true :: ((xorWrite e.xorPrev (v % 2 ^ 64)).1 ++
          (encBits ps (xorWrite e.xorPrev (v % 2 ^ 64)).2).1)),
        xorPrev := (encBits ps (xorWrite e.xorPrev (v % 2 ^ 64)).2).2,
        count := (e.count + (ps.length + 1)) % 65536 } : tsdEncoder)
      rw [tsdEncoder.mk.injEq]
      refine ⟨rfl, ?_, rfl, ?_, rfl⟩
      · simp [List.append_assoc]
      · rw [Nat.mod_add_mod]
        omega

/-- Closed form of an `AppendTime`-only run on an error-free encoder. -/
theorem appendTimes_go (bs : List Bool) (e : tsdEncoder) (he : e.err = none)
    (hc : e.count < 65536) :
    appendTimes e bs =
      { e with bits := e.bits ++ bs, count := (e.count + bs.length) % 65536 } := by
  induction bs generalizing e with
  | nil =>
    simp only [appendTimes, List.foldl_nil, List.append_nil, List.length_nil,
      Nat.add_zero, Nat.mod_eq_of_lt hc]
  | cons b bs ih =>
    have hstep : e.AppendTime b =
        { e with bits := e.bits ++ [b], count := (e.count + 1) % 65536 } := by
      simp [tsdEncoder.AppendTime, he]
    rw [appendTimes_cons, hstep, ih _ (by simpa using he) (by exact Nat.mod_lt _ (by norm_num))]
    rw [tsdEncoder.mk.injEq]
    refine ⟨rfl, ?_, rfl, ?_, rfl⟩
    · simp [List.append_assoc]
    · rw [Nat.mod_add_mod, List.length_cons]
      omega

/-- An `AppendValue`-only run never touches `count`, `startTime` or `err`. -/
theorem appendValues_go (vs : List Nat) (e : tsdEncoder) (he : e.err = none) :
    (appendValues e vs).count = e.count ∧ (appendValues e vs).err = none ∧
      (appendValues e vs).startTime = e.startTime := by
  induction vs generalizing e with
  | nil => exact ⟨rfl, he, rfl⟩
  | cons v vs ih =>
    have h1 : (e.AppendValue v).err = none := by simp [tsdEncoder.AppendValue, he]
    have h2 : (e.AppendValue v).count = e.count := by simp [tsdEncoder.AppendValue, he]
    have h3 : (e.AppendValue v).startTime = e.startTime := by
      simp [tsdEncoder.AppendValue, he]
    rw [appendValues_cons]
    have hrec := ih (e.AppendValue v) h1
    exact ⟨hrec.1.trans h2, hrec.2.1, hrec.2.2.trans h3⟩

theorem xorWrite_snd (st : Option Nat) (v : Nat) : (xorWrite st v).2 = some v := by
  cases st with
  | none => rfl
  | some p =>
    simp only [xorWrite]
    split <;> rfl

theorem u16le_append_cons (s : Nat) (rest : List Nat) :
    u16le s ++ rest = s % 256 :: s / 256 % 256 :: rest := rfl

theorem readU16le_here (s : Nat) (hs : s < 65536) (rest : List Nat) :
    readU16le (u16le s ++ rest) 0 = s := by
  have hdiv : s / 256 < 256 := by omega
  simp only [u16le_append_cons, readU16le, List.getD_cons_zero, List.getD_cons_succ]
  rw [Nat.mod_eq_of_lt hdiv]
  omega

theorem readU16le_at2 (s t : Nat) (ht : t < 65536) (rest : List Nat) :
    readU16le (u16le s ++ (u16le t ++ rest)) 2 = t := by
  have hdiv : t / 256 < 256 := by omega
  simp only [u16le_append_cons, readU16le, List.getD_cons_zero, List.getD_cons_succ]
  rw [Nat.mod_eq_of_lt hdiv]
  omega

/-- `Reset` on a well-formed block (4-byte header plus non-empty payload)
parses the little-endian header and re-initialises the whole state. -/
theorem Reset_block (d : TSDDecoder) (s t : Nat) (hs : s < 65536) (ht : t < 65536)
    (payload : List Nat) (hp : payload ≠ []) :
    d.Reset (u16le s ++ (u16le t ++ payload)) =
      ⟨s, t, bytesToBits payload, none, 0, true, none⟩ := by
  have hlen : (u16le s ++ (u16le t ++ payload)).length = 4 + payload.length := by
    simp [u16le]
    omega
  have hplen : 0 < payload.length := List.length_pos.mpr hp
  simp only [TSDDecoder.Reset, hlen]
  rw [if_neg (by omega)]
  have hdrop : (u16le s ++ (u16le t ++ payload)).drop 4 = payload := by
    simp [u16le_append_cons]
  rw [readU16le_here s hs, readU16le_at2 s t ht, hdrop]

theorem decodeLoop_succ (fuel : Nat) (d : TSDDecoder) :
    decodeLoop (fuel + 1) d =
      if (d.Next).1 then
        if ((d.Next).2.HasValue).1 then
          (true, some (((d.Next).2.HasValue).2.Value).1) ::
            decodeLoop fuel (((d.Next).2.HasValue).2.Value).2
        else
          (false, none) :: decodeLoop fuel ((d.Next).2.HasValue).2
      else [] := rfl

/-- Main decode-loop lemma: started on a state holding exactly the encoder's
emitted bits (plus arbitrary trailing padding), with the slot cursor `i` and
`ps.length` slots left in `[s, s+n-1]`, the lockstep
`Next`/`HasValue`/`Value` loop reproduces the presence bits and the values
of `ps`.  Requires `s + n ≤ 65535`: the uint16 wrap of `startTime + idx`
never fires below that bound. -/
theorem decodeLoop_go (ps : List (Bool × Nat)) (s n : Nat) (st : Option Nat)
    (i : Nat) (extra : List Bool) (fuel : Nat)
    (hn : 1 ≤ n) (hrange : s + n ≤ 65535)
    (hi : i + ps.length = n)
    (hvals : ∀ p ∈ ps, p.2 < 2 ^ 64)
    (hst : ∀ q, st = some q → q < 2 ^ 64)
    (hfuel : ps.length < fuel) :
    decodeLoop fuel ⟨s, s + n - 1, (encBits ps st).1 ++ extra, st, i, true, none⟩ =
      ps.map (fun p => (p.1, if p.1 then some p.2 else none)) := by
  induction ps generalizing st i extra fuel with
  | nil =>
    cases fuel with
    | zero => simp at hfuel
    | succ f =>
      have hin : i = n := by simpa using hi
      have hmod : (s + i) % 65536 = s + i := Nat.mod_eq_of_lt (by omega)
      have hN : (TSDDecoder.Next ⟨s, s + n - 1, (encBits [] st).1 ++ extra, st, i,
          true, none⟩) =
          (false, ⟨s, s + n - 1, (encBits [] st).1 ++ extra, st, i, true, none⟩) := by
        simp only [TSDDecoder.Next, hmod]
        rw [if_neg (by omega)]
      rw [decodeLoop_succ, hN]
      simp
  | cons p ps ih =>
    rcases p with ⟨b, v⟩
    cases fuel with
    | zero => simp at hfuel
    | succ f =>
      have hi' : i + ps.length + 1 = n := by simpa using hi
      have hf' : ps.length < f := by
        simp only [List.length_cons] at hfuel
        omega
      have hilt : i < n := by omega
      have hmod : (s + i) % 65536 = s + i := Nat.mod_eq_of_lt (by omega)
      have hnext : (s + i) % 65536 ≤ s + n - 1 := by
        rw [hmod]
        omega
      have hmod1 : (i + 1) % 65536 = i + 1 := Nat.mod_eq_of_lt (by omega)
      rw [decodeLoop_succ]
      have hNext : (TSDDecoder.Next ⟨s, s + n - 1, (encBits ((b, v) :: ps) st).1 ++ extra,
          st, i, true, none⟩) =
          (true, ⟨s, s + n - 1, (encBits ((b, v) :: ps) st).1 ++ extra, st, i + 1,
            true, none⟩) := by
        simp [TSDDecoder.Next, hnext, hmod1]
      rw [hNext]
      rcases b with _ | _
      · -- absent slot
        have hbits : (encBits ((false, v) :: ps) st).1 ++ extra =
            false :: ((encBits ps st).1 ++ extra) := by
          simp [encBits]
        have hHV : (TSDDecoder.HasValue ⟨s, s + n - 1,
            (encBits ((false, v) :: ps) st).1 ++ extra, st, i + 1, true, none⟩) =
            (false, ⟨s, s + n - 1, (encBits ps st).1 ++ extra, st, i + 1, true, none⟩) := by
          rw [hbits]
          rfl
        rw [hHV]
        simp only [Bool.false_eq_true, if_true, if_false, List.map_cons]
        rw [ih st (i + 1) extra f (by omega)
          (fun q hq => hvals q (List.mem_cons_of_mem _ hq)) hst hf']
      · -- present slot
        have hv : v < 2 ^ 64 := hvals (true, v) (List.mem_cons_self _ _)
        have hvmod : v % 2 ^ 64 = v := Nat.mod_eq_of_lt hv
        have hbits : (encBits ((true, v) :: ps) st).1 ++ extra =
            true :: ((xorWrite st v).1 ++
              ((encBits ps (xorWrite st v).2).1 ++ extra)) := by
          simp only [encBits, List.cons_append, List.append_assoc, hvmod]
        have hHV : (TSDDecoder.HasValue ⟨s, s + n - 1,
            (encBits ((true, v) :: ps) st).1 ++ extra, st, i + 1, true, none⟩) =
            (true, ⟨s, s + n - 1, (xorWrite st v).1 ++
              ((encBits ps (xorWrite st v).2).1 ++ extra), st, i + 1, true, none⟩) := by
          rw [hbits]
          rfl
        rw [hHV]
        have hread : xorRead st ((xorWrite st v).1 ++
            ((encBits ps (xorWrite st v).2).1 ++ extra)) =
            some (v, (encBits ps (xorWrite st v).2).1 ++ extra) :=
          xorRead_xorWrite st v hv hst _
        have hVal : (TSDDecoder.Value ⟨s, s + n - 1, (xorWrite st v).1 ++
            ((encBits ps (xorWrite st v).2).1 ++ extra), st, i + 1, true, none⟩) =
            (v, ⟨s, s + n - 1, (encBits ps (xorWrite st v).2).1 ++ extra, some v,
              i + 1, true, none⟩) := by
          simp [TSDDecoder.Value, hread]
        rw [hVal]
        simp only [if_true, List.map_cons]
        have hst' : ∀ q, (xorWrite st v).2 = some q → q < 2 ^ 64 := by
          rw [xorWrite_snd]
          intro q hq
          cases hq
          exact hv
        have hrec := ih (xorWrite st v).2 (i + 1) extra f (by omega)
          (fun q hq => hvals q (List.mem_cons_of_mem _ hq)) hst' hf'
        rw [xorWrite_snd st v] at hrec
        rw [xorWrite_snd st v, hrec]

theorem Next_endTime (d : TSDDecoder) : (d.Next).2.endTime = d.endTime := by
  simp only [TSDDecoder.Next]
  split <;> rfl

theorem HasValue_endTime (d : TSDDecoder) : (d.HasValue).2.endTime = d.endTime := by
  simp only [TSDDecoder.HasValue]
  split
  · rfl
  · split <;> rfl

theorem Value_endTime (d : TSDDecoder) : (d.Value).2.endTime = d.endTime := by
  simp only [TSDDecoder.Value]
  split
  · rfl
  · split <;> rfl

/-- A block whose end slot is the uint16 maximum 65535 makes `Next()` true
forever: `(startTime + idx) % 65536 ≤ 65535` always holds, so the decode
loop only stops when its fuel runs out and yields one entry per fuel unit. -/
theorem decodeLoop_length_endmax (fuel : Nat) :
    ∀ d : TSDDecoder, d.endTime = 65535 → (decodeLoop fuel d).length = fuel := by
  induction fuel with
  | zero =>
    intro d _
    rfl
  | succ f ih =>
    intro d hend
    have hN1 : (d.Next).1 = true := by
      have hcond : (d.startTime + d.idx) % 65536 ≤ d.endTime := by
        rw [hend]
        have := Nat.mod_lt (d.startTime + d.idx) (show 0 < 65536 by norm_num)
        omega
      simp [TSDDecoder.Next, hcond]
    rw [decodeLoop_succ, if_pos hN1]
    by_cases hb : (((d.Next).2.HasValue).1 = true)
    · rw [if_pos hb]
      simp only [List.length_cons]
      rw [ih _ (by rw [Value_endTime, HasValue_endTime, Next_endTime, hend])]
    · rw [if_neg hb]
      simp only [List.length_cons]
      rw [ih _ (by rw [HasValue_endTime, Next_endTime, hend])]

theorem attachIDs_append (fids : List Nat) (slot : Nat) :
    ∀ (l r : List (FieldType × Rat)) (i : Nat),
      attachIDs fids slot i (l ++ r) =
        attachIDs fids slot i l ++ attachIDs fids slot (i + l.length) r := by
  intro l
  induction l with
  | nil =>
    intro r i
    simp [attachIDs]
  | cons w l ih =>
    intro r i
    rcases w with ⟨ft, v⟩
    simp only [List.cons_append, attachIDs, List.length_cons, List.append_eq]
    rw [ih r (i + 1), show i + (l.length + 1) = i + 1 + l.length by omega]

theorem attachIDs_length (fids : List Nat) (slot : Nat) :
    ∀ (ws : List (FieldType × Rat)) (i : Nat),
      (attachIDs fids slot i ws).length = ws.length := by
  intro ws
  induction ws with
  | nil =>
    intro i
    rfl
  | cons w ws ih =>
    intro i
    rcases w with ⟨ft, v⟩
    simp [attachIDs, ih]

theorem attachIDs_map_range (fids : List Nat) (slot : Nat)
    (g : Nat → FieldType × Rat) :
    ∀ (m i : Nat),
      attachIDs fids slot i ((List.range m).map g) =
        (List.range m).map (fun j => ⟨fids.getD (i + j) 0, (g j).1, (g j).2, slot⟩) := by
  intro m
  induction m with
  | zero =>
    intro i
    rfl
  | succ m ih =>
    intro i
    rw [List.range_succ, List.map_append, List.map_append, attachIDs_append, ih]
    simp only [List.map_cons, List.map_nil, List.length_map, List.length_range]
    rfl

theorem runWrites_noFail : ∀ (ws : List FieldWrite) (i : Nat),
    runWrites (fun _ => none) i ws = (ws, none) := by
  intro ws
  induction ws with
  | nil =>
    intro i
    rfl
  | cons w ws ih =>
    intro i
    simp [runWrites, ih]

theorem runWrites_firstFail (fail : Nat → Option String) :
    ∀ (ws : List FieldWrite) (i0 i : Nat) (e : String),
      (∀ j, j < i → fail (i0 + j) = none) → fail (i0 + i) = some e →
      i < ws.length →
      runWrites fail i0 ws = (ws.take i, some e) := by
  intro ws
  induction ws with
  | nil =>
    intro i0 i e _ _ hlt
    simp at hlt
  | cons w ws ih =>
    intro i0 i e hpre hfail hlt
    cases i with
    | zero =>
      have h0 : fail i0 = some e := by simpa using hfail
      simp [runWrites, h0]
    | succ i =>
      have h0 : fail i0 = none := by simpa using hpre 0 (Nat.succ_pos i)
      have hpre' : ∀ j, j < i → fail (i0 + 1 + j) = none := by
        intro j hj
        have := hpre (j + 1) (by omega)
        rwa [show i0 + (j + 1) = i0 + 1 + j by omega] at this
      have hfail' : fail (i0 + 1 + i) = some e := by
        rwa [show i0 + 1 + i = i0 + (i + 1) by omega]
      have hlt' : i < ws.length := by
        simpa using Nat.lt_of_succ_lt_succ hlt
      simp only [runWrites, h0, List.take_succ_cons]
      rw [ih (i0 + 1) i e hpre' hfail' hlt']

theorem walkFlush_noFail (flushRes : Nat → Option String) :
    ∀ ks : List Nat, (∀ k ∈ ks, flushRes k = none) →
      walkFlush flushRes ks = (ks, none) := by
  intro ks
  induction ks with
  | nil =>
    intro _
    rfl
  | cons k ks ih =>
    intro h
    have hk : flushRes k = none := h k (List.mem_cons_self _ _)
    simp [walkFlush, hk, ih fun m hm => h m (List.mem_cons_of_mem _ hm)]

theorem walkFlush_firstFail (flushRes : Nat → Option String) :
    ∀ (pre : List Nat) (k : Nat) (post : List Nat) (e : String),
      (∀ m ∈ pre, flushRes m = none) → flushRes k = some e →
      walkFlush flushRes (pre ++ k :: post) = (pre, some e) := by
  intro pre
  induction pre with
  | nil =>
    intro k post e _ hk
    simp [walkFlush, hk]
  | cons m pre ih =>
    intro k post e hpre hk
    have hm : flushRes m = none := hpre m (List.mem_cons_self _ _)
    simp only [List.cons_append, walkFlush, hm, List.append_eq]
    rw [ih k post e (fun q hq => hpre q (List.mem_cons_of_mem _ hq)) hk]

theorem encBits_fst_ne_nil {ps : List (Bool × Nat)} (hps : ps ≠ []) (st : Option Nat) :
    (encBits ps st).1 ≠ [] := by
  cases ps with
  | nil => exact absurd rfl hps
  | cons p ps =>
    rcases p with ⟨b, v⟩
    cases b <;> simp [encBits]

/-- `Bytes` after feeding a non-empty, not-wrapping (present, value) sequence
to a fresh encoder: 4-byte little-endian header, then the padded bit
stream. -/
theorem Bytes_appendSeq (start : Nat) (hs : start < 65536) (ps : List (Bool × Nat))
    (hn : 1 ≤ ps.length) (hn2 : ps.length ≤ 65535) :
    (appendSeq (NewTSDEncoder start) ps).Bytes =
      (some (u16le start ++ (u16le ((start + ps.length - 1) % 65536) ++
        bitsToBytes (pad8 (encBits ps none).1))), none) := by
  have hrun := appendSeq_go ps (NewTSDEncoder start) rfl (by norm_num [NewTSDEncoder])
  rw [hrun]
  have hsmod : start % 65536 = start := Nat.mod_eq_of_lt hs
  have hcmod : (0 + ps.length) % 65536 = ps.length := by
    rw [Nat.zero_add]
    exact Nat.mod_eq_of_lt (by omega)
  simp only [tsdEncoder.Bytes, NewTSDEncoder, hsmod, hcmod, List.nil_append]
  rw [if_neg (by omega)]
  rw [List.append_assoc]

end LinDB

namespace LinDB

/-- C2: an encoder that never saw an `AppendTime` call — no matter how many
`AppendValue` calls it received — returns `(nil, nil)` from `Bytes()`:
a nil block and a nil error, never a non-nil zero-length block. -/
theorem c2_empty_block_law (start : Nat) (vs : List Nat) :
    (appendValues (NewTSDEncoder start) vs).Bytes = (none, none) := by
  obtain ⟨hc, he, -⟩ := appendValues_go vs (NewTSDEncoder start) rfl
  have hc0 : (appendValues (NewTSDEncoder start) vs).count = 0 := hc
  simp [tsdEncoder.Bytes, he, hc0]

/-- C6: once an error is latched in the encoder, `AppendTime` and
`AppendValue` are no-ops leaving the whole state unchanged, and both
`Bytes()` and `BytesWithoutTime()` return `(nil, latchedError)`. -/
theorem c6_encoder_sticky_error (e : tsdEncoder) (msg : String)
    (he : e.err = some msg) (b : Bool) (v : Nat) :
    e.AppendTime b = e ∧ e.AppendValue v = e ∧
      e.Bytes = (none, some msg) ∧ e.BytesWithoutTime = (none, some msg) := by
  refine ⟨?_, ?_, ?_, ?_⟩
  · simp [tsdEncoder.AppendTime, he]
  · simp [tsdEncoder.AppendValue, he]
  · simp [tsdEncoder.Bytes, he]
  · simp [tsdEncoder.BytesWithoutTime, he]

theorem c6_encoder_sticky_error_witness :
    (⟨0, [true], some 3, 1, some "write error"⟩ : tsdEncoder).err = some "write error" ∧
      ((⟨0, [true], some 3, 1, some "write error"⟩ : tsdEncoder).AppendTime true =
          ⟨0, [true], some 3, 1, some "write error"⟩ ∧
        (⟨0, [true], some 3, 1, some "write error"⟩ : tsdEncoder).AppendValue 7 =
          ⟨0, [true], some 3, 1, some "write error"⟩ ∧
        (⟨0, [true], some 3, 1, some "write error"⟩ : tsdEncoder).Bytes =
          (none, some "write error") ∧
        (⟨0, [true], some 3, 1, some "write error"⟩ : tsdEncoder).BytesWithoutTime =
          (none, some "write error")) :=
  ⟨rfl, c6_encoder_sticky_error _ "write error" rfl true 7⟩

/-- C5 counterexample: `Reset` with short data does set a sticky error, but
it does NOT leave the decoder unusable — on a fresh decoder the very next
`Next()` call still yields slot 0 (`startTime = endTime = idx = 0` are
retained, and `0 ≤ 0`), contradicting the claim that `Next()` yields no
slots until a valid `Reset`. -/
theorem c5_counterexample :
    (freshTSDDecoder.Reset []).Error ≠ none ∧
      ((freshTSDDecoder.Reset []).Next).1 = true := by
  refine ⟨by decide, by decide⟩

/-- C5 (amended): `Reset` on data of length ≤ 4 sets the sticky decode
error and leaves every other decoder field (start/end time, cursor, bit
stream, XOR state) exactly as it was; `Error()` then returns the error, and
a subsequent `Reset` with valid data (length ≥ 5) clears it.  The decoder is
not otherwise disabled: `Next()`/`HasValue()` keep operating on the retained
state. -/
theorem c5_short_reset_sticky_error (d : TSDDecoder) (data : List Nat)
    (hlen : data.length ≤ 4) :
    d.Reset data = { d with err := some "TSDDecoder resets with bad data" } ∧
      (d.Reset data).Error = some "TSDDecoder resets with bad data" ∧
      (∀ data2 : List Nat, 5 ≤ data2.length →
        ((d.Reset data).Reset data2).Error = none) := by
  have h1 : d.Reset data = { d with err := some "TSDDecoder resets with bad data" } := by
    simp [TSDDecoder.Reset, hlen]
  refine ⟨h1, by rw [h1]; rfl, ?_⟩
  intro data2 h2
  rw [h1]
  simp only [TSDDecoder.Reset]
  rw [if_neg (by omega)]
  rfl

theorem c5_short_reset_sticky_error_witness :
    ([9, 9] : List Nat).length ≤ 4 ∧
      (freshTSDDecoder.Reset [9, 9] =
          { freshTSDDecoder with err := some "TSDDecoder resets with bad data" } ∧
        (freshTSDDecoder.Reset [9, 9]).Error = some "TSDDecoder resets with bad data" ∧
        (∀ data2 : List Nat, 5 ≤ data2.length →
          ((freshTSDDecoder.Reset [9, 9]).Reset data2).Error = none)) :=
  ⟨by decide, c5_short_reset_sticky_error freshTSDDecoder [9, 9] (by decide)⟩

/-- C3 counterexample: start slot 65535 with two `AppendTime` calls.  The
uint16 end-slot field wraps: the block records end = (65535 + 2 - 1) mod
2^16 = 0 and the decoder reports `EndTime() = 0`, not the claimed
`startTime + count - 1 = 65536`. -/
theorem c3_counterexample :
    (((NewTSDEncoder 65535).AppendTime true).AppendTime true).Bytes =
      (some [255, 255, 0, 0, 192], none) ∧
    (freshTSDDecoder.Reset [255, 255, 0, 0, 192]).StartTime = 65535 ∧
    (freshTSDDecoder.Reset [255, 255, 0, 0, 192]).EndTime ≠ 65535 + 2 - 1 := by
  refine ⟨by decide, by decide, by decide⟩

/-- C3 (amended): for a fresh encoder with uint16 start slot `startTime`
that performed `count` appends, `1 ≤ count ≤ 65535`, the block carries
`startTime` little-endian in bytes 0-1 and the uint16 value
`(startTime + count - 1) mod 2^16` in bytes 2-3, and a decoder `Reset` on it
reports `StartTime() = startTime` and `EndTime() = (startTime + count - 1)
mod 2^16` — equal to `startTime + count - 1` exactly when that sum does not
wrap. -/
theorem c3_header_correctness (start : Nat) (hs : start < 65536)
    (ps : List (Bool × Nat)) (hn : 1 ≤ ps.length) (hn2 : ps.length ≤ 65535) :
    ∃ payload : List Nat,
      (appendSeq (NewTSDEncoder start) ps).Bytes =
        (some (u16le start ++ (u16le ((start + ps.length - 1) % 65536) ++ payload)), none) ∧
      (freshTSDDecoder.Reset
        (u16le start ++ (u16le ((start + ps.length - 1) % 65536) ++ payload))).StartTime
        = start ∧
      (freshTSDDecoder.Reset
        (u16le start ++ (u16le ((start + ps.length - 1) % 65536) ++ payload))).EndTime
        = (start + ps.length - 1) % 65536 := by
  have hpsne : ps ≠ [] := by
    intro hh
    rw [hh] at hn
    simp at hn
  have hpne : bitsToBytes (pad8 (encBits ps none).1) ≠ [] :=
    bitsToBytes_ne_nil (pad8_ne_nil (encBits_fst_ne_nil hpsne none))
  have hR := Reset_block freshTSDDecoder start ((start + ps.length - 1) % 65536) hs
    (Nat.mod_lt _ (by norm_num)) (bitsToBytes (pad8 (encBits ps none).1)) hpne
  refine ⟨bitsToBytes (pad8 (encBits ps none).1), Bytes_appendSeq start hs ps hn hn2, ?_, ?_⟩
  · rw [hR]
    rfl
  · rw [hR]
    rfl

theorem c3_header_correctness_witness :
    (3 < 65536 ∧ 1 ≤ ([(true, 5), (false, 0)] : List (Bool × Nat)).length ∧
      ([(true, 5), (false, 0)] : List (Bool × Nat)).length ≤ 65535) ∧
    (∃ payload : List Nat,
      (appendSeq (NewTSDEncoder 3) [(true, 5), (false, 0)]).Bytes =
        (some (u16le 3 ++ (u16le ((3 + ([(true, 5), (false, 0)] : List (Bool × Nat)).length - 1)
          % 65536) ++ payload)), none) ∧
      (freshTSDDecoder.Reset
        (u16le 3 ++ (u16le ((3 + ([(true, 5), (false, 0)] : List (Bool × Nat)).length - 1)
          % 65536) ++ payload))).StartTime = 3 ∧
      (freshTSDDecoder.Reset
        (u16le 3 ++ (u16le ((3 + ([(true, 5), (false, 0)] : List (Bool × Nat)).length - 1)
          % 65536) ++ payload))).EndTime =
        (3 + ([(true, 5), (false, 0)] : List (Bool × Nat)).length - 1) % 65536) :=
  ⟨⟨by decide, by decide, by decide⟩,
    c3_header_correctness 3 (by decide) [(true, 5), (false, 0)] (by decide) (by decide)⟩

/-- C4 counterexample: start slot 65535 with two `AppendTime` calls gives a
block whose uint16 end slot wraps to 0, strictly below its start slot
65535 — `end ≥ start` fails under wrap-around, which the claim explicitly
quantified over. -/
theorem c4_counterexample :
    (((NewTSDEncoder 65535).AppendTime true).AppendTime true).Bytes =
      (some [255, 255, 0, 0, 192], none) ∧
    readU16le [255, 255, 0, 0, 192] 2 < readU16le [255, 255, 0, 0, 192] 0 := by
  refine ⟨by decide, by decide⟩

/-- C4 (amended): for every non-empty block produced by `Bytes()` whose
slot range does not wrap uint16 — `1 ≤ count ≤ 65535` appends and
`startTime + count ≤ 65536` — the encoded end slot (bytes 2-3) is at least
the encoded start slot (bytes 0-1). -/
theorem c4_nonempty_range (start : Nat) (ps : List (Bool × Nat))
    (hn : 1 ≤ ps.length) (hn2 : ps.length ≤ 65535) (hw : start + ps.length ≤ 65536) :
    ∃ block : List Nat,
      (appendSeq (NewTSDEncoder start) ps).Bytes = (some block, none) ∧
      readU16le block 0 ≤ readU16le block 2 := by
  have hs : start < 65536 := by omega
  refine ⟨_, Bytes_appendSeq start hs ps hn hn2, ?_⟩
  have hend : (start + ps.length - 1) % 65536 = start + ps.length - 1 :=
    Nat.mod_eq_of_lt (by omega)
  rw [readU16le_here start hs, readU16le_at2 start _ (by rw [hend]; omega), hend]
  omega

theorem c4_nonempty_range_witness :
    (1 ≤ ([(true, 5)] : List (Bool × Nat)).length ∧
      ([(true, 5)] : List (Bool × Nat)).length ≤ 65535 ∧
      7 + ([(true, 5)] : List (Bool × Nat)).length ≤ 65536) ∧
    (∃ block : List Nat,
      (appendSeq (NewTSDEncoder 7) [(true, 5)]).Bytes = (some block, none) ∧
      readU16le block 0 ≤ readU16le block 2) :=
  ⟨⟨by decide, by decide, by decide⟩,
    c4_nonempty_range 7 [(true, 5)] (by decide) (by decide) (by decide)⟩

/-- C10 counterexample: start slot 65535, one append, `Reset`, one more
append.  The retained uint16 counter makes the header's end slot
`(65535 + 2 - 1) mod 2^16 = 0`, not the claimed `startTime + n + k - 1 =
65536` — the claim holds only modulo 2^16. -/
theorem c10_counterexample :
    (appendTimes ((appendTimes (NewTSDEncoder 65535) [true]).Reset) [true]).Bytes =
      (some [255, 255, 0, 0, 128], none) ∧
    readU16le [255, 255, 0, 0, 128] 2 ≠ 65535 + 1 + 1 - 1 := by
  refine ⟨by decide, by decide⟩

/-- C10 (amended): `tsdEncoder.Reset` clears exactly the bit buffer/writer
and the XOR state, retaining `startTime`, `count` and the sticky error; a
latched error therefore still surfaces from `Bytes()` after `Reset`; and an
encoder that appended `n` presence bits, was `Reset`, and then appended `k`
more produces (for `1 ≤ n + k ≤ 65535`) a header whose end slot is the
uint16 value `(startTime + n + k - 1) mod 2^16` while the payload holds only
the `k` post-`Reset` presence bits. -/
theorem c10_encoder_reset_frame (e : tsdEncoder) (start : Nat) (bs1 bs2 : List Bool)
    (hs : start < 65536) (hn : 1 ≤ bs1.length + bs2.length)
    (hn2 : bs1.length + bs2.length ≤ 65535) :
    e.Reset = { e with bits := [], xorPrev := none } ∧
    (∀ msg, e.err = some msg → e.Reset.Bytes = (none, some msg)) ∧
    (appendTimes ((appendTimes (NewTSDEncoder start) bs1).Reset) bs2).Bytes =
      (some (u16le start ++ (u16le ((start + (bs1.length + bs2.length) - 1) % 65536) ++
        bitsToBytes (pad8 bs2))), none) := by
  refine ⟨rfl, ?_, ?_⟩
  · intro msg hmsg
    simp [tsdEncoder.Reset, tsdEncoder.Bytes, hmsg]
  · have h1 : appendTimes (NewTSDEncoder start) bs1 =
        ⟨start % 65536, bs1, none, bs1.length % 65536, none⟩ := by
      rw [appendTimes_go bs1 _ rfl (by norm_num [NewTSDEncoder])]
      simp [NewTSDEncoder]
    have h2 : (⟨start % 65536, bs1, none, bs1.length % 65536, none⟩ : tsdEncoder).Reset =
        ⟨start % 65536, [], none, bs1.length % 65536, none⟩ := rfl
    have h3 : appendTimes (⟨start % 65536, [], none, bs1.length % 65536, none⟩ : tsdEncoder)
        bs2 = ⟨start % 65536, bs2, none, (bs1.length % 65536 + bs2.length) % 65536, none⟩ := by
      rw [appendTimes_go bs2 _ rfl (Nat.mod_lt _ (by norm_num))]
      simp
    rw [h1, h2, h3]
    have hsmod : start % 65536 = start := Nat.mod_eq_of_lt hs
    have hcmod : (bs1.length % 65536 + bs2.length) % 65536 = bs1.length + bs2.length := by
      rw [Nat.mod_add_mod]
      exact Nat.mod_eq_of_lt (by omega)
    simp only [tsdEncoder.Bytes, hsmod, hcmod]
    rw [if_neg (by omega), List.append_assoc]

theorem c10_encoder_reset_frame_witness :
    (9 < 65536 ∧ 1 ≤ ([true, false] : List Bool).length + ([true] : List Bool).length ∧
      ([true, false] : List Bool).length + ([true] : List Bool).length ≤ 65535) ∧
    ((⟨2, [false], some 4, 3, some "werr"⟩ : tsdEncoder).Reset =
        { (⟨2, [false], some 4, 3, some "werr"⟩ : tsdEncoder) with
            bits := [], xorPrev := none } ∧
      (∀ msg, (⟨2, [false], some 4, 3, some "werr"⟩ : tsdEncoder).err = some msg →
        (⟨2, [false], some 4, 3, some "werr"⟩ : tsdEncoder).Reset.Bytes = (none, some msg)) ∧
      (appendTimes ((appendTimes (NewTSDEncoder 9) [true, false]).Reset) [true]).Bytes =
        (some (u16le 9 ++ (u16le ((9 + (([true, false] : List Bool).length +
            ([true] : List Bool).length) - 1) % 65536) ++
          bitsToBytes (pad8 [true]))), none)) :=
  ⟨⟨by decide, by decide, by decide⟩,
    c10_encoder_reset_frame ⟨2, [false], some 4, 3, some "werr"⟩ 9 [true, false] [true]
      (by decide) (by decide) (by decide)⟩

/-- C1 counterexample: a single-slot sequence at slot 65535.  The block's
end slot is the uint16 maximum, so `(startTime + idx) mod 2^16 ≤ endTime`
holds for every cursor value and the decoder's `Next()` never returns
false: iterating in lockstep yields 65536 entries instead of the one
encoded slot, so the decode does not reproduce the input sequence. -/
theorem c1_counterexample :
    ¬ ∃ block : List Nat,
        (appendSeq (NewTSDEncoder 65535) [(true, 5)]).Bytes = (some block, none) ∧
        decodeLoop 65536 (freshTSDDecoder.Reset block) = [(true, some 5)] := by
  rintro ⟨block, hB, hdec⟩
  have hB2 := Bytes_appendSeq 65535 (by norm_num) [(true, 5)] (by norm_num) (by norm_num)
  rw [hB2] at hB
  have hx := congrArg Prod.fst hB
  simp only at hx
  have hblock : u16le 65535 ++ (u16le ((65535 + 1 - 1) % 65536) ++
      bitsToBytes (pad8 (encBits [(true, 5)] none).1)) = block := by
    have hlen1 : ([(true, 5)] : List (Bool × Nat)).length = 1 := rfl
    rw [hlen1] at hx
    exact Option.some.inj hx
  have hpne : bitsToBytes (pad8 (encBits [(true, 5)] none).1) ≠ [] :=
    bitsToBytes_ne_nil (pad8_ne_nil (encBits_fst_ne_nil (by simp) none))
  have hR := Reset_block freshTSDDecoder 65535 ((65535 + 1 - 1) % 65536) (by norm_num)
    (Nat.mod_lt _ (by norm_num)) (bitsToBytes (pad8 (encBits [(true, 5)] none).1)) hpne
  rw [← hblock, hR] at hdec
  have hlen := decodeLoop_length_endmax 65536
    ⟨65535, (65535 + 1 - 1) % 65536, bytesToBits (bitsToBytes (pad8 (encBits [(true, 5)] none).1)),
      none, 0, true, none⟩ (by norm_num)
  rw [hdec] at hlen
  simp at hlen

/-- C1 (amended): round-trip holds for every non-empty (present, value)
sequence of 64-bit values whose slots stay strictly inside the uint16 range
(`start + count ≤ 65535`, i.e. the last slot is at most 65534): feeding it
to a fresh encoder in order — one `AppendTime` per slot, one `AppendValue`
per present slot — and decoding the `Bytes()` block with `Reset` followed by
the lockstep `Next()`/`HasValue()`/`Value()` loop reproduces exactly the
presence bits and, for present slots, the values, in order.  At the
excluded boundary the code fails the claim: a block ending at slot 65535
makes `Next()` loop forever, and 65536 slots wrap the uint16 counter so
`Bytes()` returns nil. -/
theorem c1_roundtrip (start : Nat) (ps : List (Bool × Nat))
    (hn : 1 ≤ ps.length) (hrange : start + ps.length ≤ 65535)
    (hvals : ∀ p ∈ ps, p.2 < 2 ^ 64) :
    ∃ block : List Nat,
      (appendSeq (NewTSDEncoder start) ps).Bytes = (some block, none) ∧
      decodeLoop 65536 (freshTSDDecoder.Reset block) =
        ps.map (fun p => (p.1, if p.1 then some p.2 else none)) := by
  have hs : start < 65536 := by omega
  have hn2 : ps.length ≤ 65535 := by omega
  refine ⟨_, Bytes_appendSeq start hs ps hn hn2, ?_⟩
  have hpsne : ps ≠ [] := by
    intro hh
    rw [hh] at hn
    simp at hn
  have hpne : bitsToBytes (pad8 (encBits ps none).1) ≠ [] :=
    bitsToBytes_ne_nil (pad8_ne_nil (encBits_fst_ne_nil hpsne none))
  rw [Reset_block freshTSDDecoder start ((start + ps.length - 1) % 65536) hs
    (Nat.mod_lt _ (by norm_num)) (bitsToBytes (pad8 (encBits ps none).1)) hpne]
  have hend : (start + ps.length - 1) % 65536 = start + ps.length - 1 :=
    Nat.mod_eq_of_lt (by omega)
  rw [hend, bytesToBits_bitsToBytes _ (pad8_length_mod _), pad8_eq_append]
  exact decodeLoop_go ps start ps.length none 0 _ 65536 hn hrange (Nat.zero_add _) hvals
    (fun q hq => Option.noConfusion hq) (by omega)

theorem c1_roundtrip_witness :
    (1 ≤ ([(true, 5), (false, 0), (true, 7)] : List (Bool × Nat)).length ∧
      3 + ([(true, 5), (false, 0), (true, 7)] : List (Bool × Nat)).length ≤ 65535 ∧
      (∀ p ∈ ([(true, 5), (false, 0), (true, 7)] : List (Bool × Nat)), p.2 < 2 ^ 64)) ∧
    (∃ block : List Nat,
      (appendSeq (NewTSDEncoder 3) [(true, 5), (false, 0), (true, 7)]).Bytes =
        (some block, none) ∧
      decodeLoop 65536 (freshTSDDecoder.Reset block) =
        ([(true, 5), (false, 0), (true, 7)] : List (Bool × Nat)).map
          (fun p => (p.1, if p.1 then some p.2 else none))) :=
  ⟨⟨by decide, by decide, by decide⟩,
    c1_roundtrip 3 [(true, 5), (false, 0), (true, 7)] (by decide) (by decide) (by decide)⟩

/-- C7: for a point whose proto carries a compound field with `Min > 0` and
`Max > 0`, `WriteWithoutLock` performs (after the simple-field writes)
exactly `2 + 2 + len(ExplicitBounds)` compound field writes in the fixed
order min, max, sum, count, then one per explicit bound, each using the
field ID at the current positional index of the point's field-ID list. -/
theorem c7_compound_expansion (p : MetricPoint) (cf : CompoundField)
    (hcf : p.proto.compoundField = some cf) (hmin : 0 < cf.Min) (hmax : 0 < cf.Max) :
    WriteWithoutLock (fun _ => none) p = (intendedWrites p, none) ∧
    intendedWrites p =
      attachIDs p.fieldIDs p.slotIndex 0 (simpleWrites p.proto.simpleFields) ++
        (⟨p.fieldIDs.getD ((simpleWrites p.proto.simpleFields).length) 0,
            FieldType.MinField, cf.Min, p.slotIndex⟩ ::
         ⟨p.fieldIDs.getD ((simpleWrites p.proto.simpleFields).length + 1) 0,
            FieldType.MinField, cf.Max, p.slotIndex⟩ ::
         ⟨p.fieldIDs.getD ((simpleWrites p.proto.simpleFields).length + 2) 0,
            FieldType.SumField, cf.Sum, p.slotIndex⟩ ::
         ⟨p.fieldIDs.getD ((simpleWrites p.proto.simpleFields).length + 3) 0,
            FieldType.SumField, cf.Count, p.slotIndex⟩ ::
         (List.range cf.ExplicitBounds.length).map (fun j =>
           ⟨p.fieldIDs.getD ((simpleWrites p.proto.simpleFields).length + 4 + j) 0,
             FieldType.HistogramField, cf.Values.getD j 0, p.slotIndex⟩)) ∧
    (intendedWrites p).length =
      (simpleWrites p.proto.simpleFields).length + (2 + 2 + cf.ExplicitBounds.length) := by
  have hpw : pointWrites p = simpleWrites p.proto.simpleFields ++ compoundWrites cf := by
    simp [pointWrites, hcf]
  have hcw : compoundWrites cf =
      (FieldType.MinField, cf.Min) :: (FieldType.MinField, cf.Max) ::
      (FieldType.SumField, cf.Sum) :: (FieldType.SumField, cf.Count) ::
      (List.range cf.ExplicitBounds.length).map
        (fun idx => (FieldType.HistogramField, cf.Values.getD idx 0)) := by
    simp [compoundWrites, if_pos hmin, if_pos hmax]
  refine ⟨runWrites_noFail (intendedWrites p) 0, ?_, ?_⟩
  · rw [intendedWrites, hpw, attachIDs_append, hcw]
    simp only [attachIDs, Nat.zero_add]
    rw [attachIDs_map_range]
  · rw [intendedWrites, hpw, attachIDs_length, List.length_append, hcw]
    simp
    omega

theorem c7_compound_expansion_witness :
    ((⟨1, 7, 10, [20, 21, 22, 23, 24, 25],
        ⟨[], some ⟨1, 9, 20, 4, [1, 5], [2, 2]⟩⟩⟩ : MetricPoint).proto.compoundField =
        some ⟨1, 9, 20, 4, [1, 5], [2, 2]⟩ ∧
      (0 : Rat) < 1 ∧ (0 : Rat) < 9) ∧
    (WriteWithoutLock (fun _ => none)
        ⟨1, 7, 10, [20, 21, 22, 23, 24, 25], ⟨[], some ⟨1, 9, 20, 4, [1, 5], [2, 2]⟩⟩⟩ =
      (intendedWrites ⟨1, 7, 10, [20, 21, 22, 23, 24, 25],
        ⟨[], some ⟨1, 9, 20, 4, [1, 5], [2, 2]⟩⟩⟩, none)) ∧
    intendedWrites ⟨1, 7, 10, [20, 21, 22, 23, 24, 25],
        ⟨[], some ⟨1, 9, 20, 4, [1, 5], [2, 2]⟩⟩⟩ =
      [⟨20, FieldType.MinField, 1, 10⟩, ⟨21, FieldType.MinField, 9, 10⟩,
       ⟨22, FieldType.SumField, 20, 10⟩, ⟨23, FieldType.SumField, 4, 10⟩,
       ⟨24, FieldType.HistogramField, 2, 10⟩, ⟨25, FieldType.HistogramField, 2, 10⟩] ∧
    (intendedWrites ⟨1, 7, 10, [20, 21, 22, 23, 24, 25],
        ⟨[], some ⟨1, 9, 20, 4, [1, 5], [2, 2]⟩⟩⟩).length = 6 :=
  ⟨⟨rfl, by decide, by decide⟩,
    (c7_compound_expansion _ _ rfl (by decide) (by decide)).1,
    by decide, by decide⟩

/-- C8: if the i-th per-field write of a point fails (all earlier ones
succeeding), `WriteWithoutLock` returns that error at once, performs none of
the remaining field writes, and keeps the `i` writes already performed —
there is no rollback. -/
theorem c8_write_failure_no_rollback (p : MetricPoint) (fail : Nat → Option String)
    (i : Nat) (e : String)
    (hpre : ∀ j, j < i → fail j = none) (hf : fail i = some e)
    (hlt : i < (intendedWrites p).length) :
    WriteWithoutLock fail p = ((intendedWrites p).take i, some e) := by
  unfold WriteWithoutLock
  refine runWrites_firstFail fail (intendedWrites p) 0 i e ?_ (by simpa using hf) hlt
  intro j hj
  simpa using hpre j hj

theorem c8_write_failure_no_rollback_witness :
    ((∀ j, j < 2 → (fun j => if j = 2 then some "alloc failure" else none) j = none) ∧
      (fun j => if j = 2 then some "alloc failure" else (none : Option String)) 2 =
        some "alloc failure" ∧
      2 < (intendedWrites ⟨1, 7, 10, [20, 21, 22, 23, 24, 25],
        ⟨[], some ⟨1, 9, 20, 4, [1, 5], [2, 2]⟩⟩⟩).length) ∧
    WriteWithoutLock (fun j => if j = 2 then some "alloc failure" else none)
        ⟨1, 7, 10, [20, 21, 22, 23, 24, 25], ⟨[], some ⟨1, 9, 20, 4, [1, 5], [2, 2]⟩⟩⟩ =
      ((intendedWrites ⟨1, 7, 10, [20, 21, 22, 23, 24, 25],
        ⟨[], some ⟨1, 9, 20, 4, [1, 5], [2, 2]⟩⟩⟩).take 2, some "alloc failure") :=
  ⟨⟨fun j hj => by interval_cases j <;> rfl, rfl, by decide⟩,
    c8_write_failure_no_rollback _ _ 2 "alloc failure"
      (fun j hj => by interval_cases j <;> rfl) rfl (by decide)⟩

/-- C9: `FlushFamilyTo` walks the metric stores in order; when every
per-metric flush succeeds it flushes them all and calls `Commit()` exactly
once, returning the commit result; at the first per-metric failure it stops
the walk, flushes no further metric, never calls `Commit()`, and returns
that error. -/
theorem c9_flush_all_or_nothing (entries : List Nat) (flushRes : Nat → Option String)
    (commitRes : Option String) :
    ((∀ m ∈ entries, flushRes m = none) →
      FlushFamilyTo entries flushRes commitRes = ((entries, 1), commitRes)) ∧
    (∀ (pre : List Nat) (k : Nat) (post : List Nat) (e : String),
      entries = pre ++ k :: post →
      (∀ m ∈ pre, flushRes m = none) → flushRes k = some e →
      FlushFamilyTo entries flushRes commitRes = ((pre, 0), some e)) := by
  constructor
  · intro h
    unfold FlushFamilyTo
    rw [walkFlush_noFail flushRes entries h]
  · rintro pre k post e rfl hpre hk
    unfold FlushFamilyTo
    rw [walkFlush_firstFail flushRes pre k post e hpre hk]

theorem c9_flush_all_or_nothing_witness :
    ((∀ m ∈ ([1, 2, 3] : List Nat), (fun _ => (none : Option String)) m = none) ∧
      FlushFamilyTo [1, 2, 3] (fun _ => none) (none : Option String) =
        (([1, 2, 3], 1), none)) ∧
    (([1, 2, 3] : List Nat) = [1] ++ 2 :: [3] ∧
      (∀ m ∈ ([1] : List Nat),
        (fun m => if m = 2 then some "flush failure" else (none : Option String)) m = none) ∧
      (fun m => if m = 2 then some "flush failure" else (none : Option String)) 2 =
        some "flush failure" ∧
      FlushFamilyTo [1, 2, 3] (fun m => if m = 2 then some "flush failure" else none)
        (none : Option String) = (([1], 0), some "flush failure")) :=
  ⟨⟨fun m _ => rfl,
    (c9_flush_all_or_nothing [1, 2, 3] (fun _ => none) none).1 (fun m _ => rfl)⟩,
   ⟨rfl, fun m hm => by simp at hm; subst hm; rfl, rfl,
    (c9_flush_all_or_nothing [1, 2, 3]
      (fun m => if m = 2 then some "flush failure" else none) none).2
      [1] 2 [3] "flush failure" rfl (fun m hm => by simp at hm; subst hm; rfl) rfl⟩⟩

end LinDB
